import Mathlib

/-!
Shallow embedding of the XNNPACK microkernel
`xnn_f32_relu_ukernel__sse_x4` (src/f32-relu/gen/sse-x4.c) and proofs of
its specification properties.

Modelling choices:
* A single-precision float is modelled by `F32`: NaN, signed infinities,
  negative zero, or a finite value carried as a rational number
  (`F32.fin 0` is positive zero, the bit pattern produced by
  `_mm_setzero_ps`).
* `_mm_max_ps` follows the documented SSE `MAXPS` semantics: if either
  operand is NaN the second operand is returned, and if both operands are
  zeros (of either sign) the second operand is returned.
* Memory is a total map `ℤ → F32` indexed in float-sized units; the `x`
  and `y` pointers of the C function become integer base offsets into that
  one memory, so exact in-place aliasing (`y = x`) is expressible.
* The kernel is instrumented: it additionally returns the list of memory
  indices loaded and the list of memory indices stored, in program order,
  so out-of-bounds-access claims become claims about those lists.
* The byte count `n` and the loop structure follow the C source; the main
  `for` loop becomes `reluLoopF`, structurally recursive on a fuel bound
  (the fuel `n` always suffices, since each iteration consumes
  `4 * sizeof(float)` bytes of `n`).
-/

/-- Model of an IEEE-754 single-precision value, as far as this kernel can
distinguish them: NaN (all NaN payloads identified), an infinity with its
sign (`inf true` is `-∞`), negative zero, or a finite value given by its
rational magnitude (`fin 0` is positive zero). -/
inductive F32 where
  | nan : F32
  | inf : Bool → F32
  | negZero : F32
  | fin : ℚ → F32
deriving DecidableEq

/-- True exactly on the NaN value. -/
def F32.isNaN : F32 → Bool
  | .nan => true
  | _ => false

/-- True on finite values (including both zeros). -/
def F32.isFinite : F32 → Bool
  | .negZero => true
  | .fin _ => true
  | _ => false

/-- Numeric value of a finite `F32` (`negZero` has value 0). -/
def F32.toRat : F32 → ℚ
  | .fin q => q
  | _ => 0

/-- Strict numeric greater-than on non-NaN values; both zeros compare
equal. Returns `false` when either argument is NaN (never reached by
`maxps`, which tests NaN first). -/
def F32.gtv : F32 → F32 → Bool
  | .nan, _ => false
  | _, .nan => false
  | .inf a, .inf b => !a && b
  | .inf a, _ => !a
  | _, .inf b => b
  | .negZero, .negZero => false
  | .negZero, .fin q => decide ((0 : ℚ) > q)
  | .fin p, .negZero => decide (p > 0)
  | .fin p, .fin q => decide (p > q)

/-- SSE `MAXPS` lane semantics: `maxps a b` returns `b` if `a` is NaN,
returns `b` if `b` is NaN, returns `b` when the operands compare equal
(in particular when both are zeros of either sign), and otherwise returns
the numerically larger operand. -/
def F32.maxps (a b : F32) : F32 :=
  if a.isNaN then b
  else if b.isNaN then b
  else if a.gtv b then a else b

/-- A 128-bit SSE register holding four lanes of `F32`; `lane0` is the
lowest-addressed element on load/store. -/
structure M128 where
  lane0 : F32
  lane1 : F32
  lane2 : F32
  lane3 : F32
deriving DecidableEq

/-- `_mm_loadu_ps`: load four consecutive floats starting at index `p`. -/
def mm_loadu_ps (mem : ℤ → F32) (p : ℤ) : M128 :=
  { lane0 := mem p, lane1 := mem (p + 1), lane2 := mem (p + 2), lane3 := mem (p + 3) }

/-- `_mm_setzero_ps`: all four lanes positive zero. -/
def mm_setzero_ps : M128 :=
  { lane0 := F32.fin 0, lane1 := F32.fin 0, lane2 := F32.fin 0, lane3 := F32.fin 0 }

/-- `_mm_max_ps`: lanewise `MAXPS`. -/
def mm_max_ps (a b : M128) : M128 :=
  { lane0 := F32.maxps a.lane0 b.lane0
    lane1 := F32.maxps a.lane1 b.lane1
    lane2 := F32.maxps a.lane2 b.lane2
    lane3 := F32.maxps a.lane3 b.lane3 }

/-- `_mm_storeu_ps`: store all four lanes at indices `p .. p+3`. -/
def mm_storeu_ps (mem : ℤ → F32) (p : ℤ) (v : M128) : ℤ → F32 :=
  fun j =>
    if j = p then v.lane0
    else if j = p + 1 then v.lane1
    else if j = p + 2 then v.lane2
    else if j = p + 3 then v.lane3
    else mem j

/-- `_mm_storel_pi`: store the two low lanes at indices `p, p+1`. -/
def mm_storel_pi (mem : ℤ → F32) (p : ℤ) (v : M128) : ℤ → F32 :=
  fun j =>
    if j = p then v.lane0
    else if j = p + 1 then v.lane1
    else mem j

/-- `_mm_store_ss`: store lane 0 at index `p`. -/
def mm_store_ss (mem : ℤ → F32) (p : ℤ) (v : M128) : ℤ → F32 :=
  fun j => if j = p then v.lane0 else mem j

/-- `_mm_movehl_ps a b`: result lanes are `(b.lane2, b.lane3, a.lane2, a.lane3)`. -/
def mm_movehl_ps (a b : M128) : M128 :=
  { lane0 := b.lane2, lane1 := b.lane3, lane2 := a.lane2, lane3 := a.lane3 }

/-- `sizeof(float)` in bytes. -/
def sizeofFloat : ℕ := 4

/-- Machine state threaded through the kernel: the (single, shared) float
memory, the remaining byte count `n`, the input cursor `x` and output
cursor `y` (indices in float units), and the instrumentation lists of
loaded and stored indices, in program order. -/
structure LoopSt where
  mem : ℤ → F32
  n : ℕ
  x : ℤ
  y : ℤ
  reads : List ℤ
  writes : List ℤ

/-- The main `for` loop of the kernel:
`for (; n >= 4*sizeof(float); n -= 4*sizeof(float)) { load; max; store; }`.
The first argument is recursion fuel; fuel `n` always suffices because
each iteration removes `4 * sizeof(float)` bytes from `n`. -/
def reluLoopF : ℕ → LoopSt → LoopSt
  | 0, s => s
  | fuel + 1, s =>
    if 4 * sizeofFloat ≤ s.n then
      let vacc0123 := mm_max_ps (mm_loadu_ps s.mem s.x) mm_setzero_ps
      reluLoopF fuel
        { mem := mm_storeu_ps s.mem s.y vacc0123
          n := s.n - 4 * sizeofFloat
          x := s.x + 4
          y := s.y + 4
          reads := s.reads ++ [s.x, s.x + 1, s.x + 2, s.x + 3]
          writes := s.writes ++ [s.y, s.y + 1, s.y + 2, s.y + 3] }
    else s

/-- The full kernel `xnn_f32_relu_ukernel__sse_x4(n, x, y, params)`:
main loop, then the `if (n != 0)` tail with a full-width load and
bit-tested partial stores.  The two sequential `if (n & ...)` statements
of the source are laid out as nested branches; each branch records
exactly the stores the source performs on that path.  The `params`
argument is never read, exactly as in the source. -/
def xnn_f32_relu_ukernel__sse_x4 {P : Type} (n : ℕ) (x y : ℤ)
    (mem : ℤ → F32) (params : P) : LoopSt :=
  let s := reluLoopF n { mem := mem, n := n, x := x, y := y, reads := [], writes := [] }
  if s.n ≠ 0 then
    let vacc := mm_max_ps (mm_loadu_ps s.mem s.x) mm_setzero_ps
    let reads1 := s.reads ++ [s.x, s.x + 1, s.x + 2, s.x + 3]
    if s.n &&& (2 * sizeofFloat) ≠ 0 then
      let mem1 := mm_storel_pi s.mem s.y vacc
      let vacc1 := mm_movehl_ps vacc vacc
      let y1 := s.y + 2
      if s.n &&& (1 * sizeofFloat) ≠ 0 then
        { mem := mm_store_ss mem1 y1 vacc1, n := s.n, x := s.x, y := y1
          reads := reads1, writes := s.writes ++ [s.y, s.y + 1, y1] }
      else
        { mem := mem1, n := s.n, x := s.x, y := y1
          reads := reads1, writes := s.writes ++ [s.y, s.y + 1] }
    else
      if s.n &&& (1 * sizeofFloat) ≠ 0 then
        { mem := mm_store_ss s.mem s.y vacc, n := s.n, x := s.x, y := s.y
          reads := reads1, writes := s.writes ++ [s.y] }
      else
        { mem := s.mem, n := s.n, x := s.x, y := s.y
          reads := reads1, writes := s.writes }
  else s

/-- The list of `m` consecutive indices starting at `p`. -/
def idxRange (p : ℤ) : ℕ → List ℤ
  | 0 => []
  | m + 1 => p :: idxRange (p + 1) m

example :
    (xnn_f32_relu_ukernel__sse_x4 4 0 10 (fun _ => F32.fin (-2)) ()).mem 10
      = F32.fin 0 := by decide

example :
    (xnn_f32_relu_ukernel__sse_x4 4 0 10 (fun _ => F32.fin (-2)) ()).reads
      = [0, 1, 2, 3] := by decide

/-! ### Basic lemmas about `idxRange` -/

lemma idxRange_zero (p : ℤ) : idxRange p 0 = [] := rfl

lemma idxRange_succ (p : ℤ) (m : ℕ) : idxRange p (m + 1) = p :: idxRange (p + 1) m := rfl

lemma idxRange_four (p : ℤ) : idxRange p 4 = [p, p + 1, p + 2, p + 3] := by
  show p :: (p + 1) :: (p + 1 + 1) :: (p + 1 + 1 + 1) :: [] = [p, p + 1, p + 2, p + 3]
  norm_num
  constructor <;> ring

lemma idxRange_append (p : ℤ) (a b : ℕ) :
    idxRange p (a + b) = idxRange p a ++ idxRange (p + (a : ℤ)) b := by
  induction a generalizing p with
  | zero => simp [idxRange_zero]
  | succ a ih =>
      rw [show a + 1 + b = (a + b) + 1 from by omega, idxRange_succ, idxRange_succ,
        ih (p + 1), List.cons_append]
      congr 2
      push_cast
      ring

lemma mem_idxRange {j : ℤ} : ∀ {m : ℕ} {p : ℤ},
    j ∈ idxRange p m ↔ ∃ i : ℕ, i < m ∧ j = p + (i : ℤ) := by
  intro m
  induction m with
  | zero => intro p; simp [idxRange_zero]
  | succ m ih =>
      intro p
      rw [idxRange_succ]
      constructor
      · intro h
        rcases List.mem_cons.mp h with h | h
        · exact ⟨0, by omega, by simpa using h⟩
        · rcases ih.mp h with ⟨i, hi, rfl⟩
          exact ⟨i + 1, by omega, by push_cast; ring⟩
      · rintro ⟨i, hi, rfl⟩
        cases i with
        | zero => simp
        | succ i =>
            refine List.mem_cons.mpr (Or.inr (ih.mpr ⟨i, by omega, ?_⟩))
            push_cast
            ring

/-! ### The main loop: unfolding and characterization -/

lemma reluLoopF_small (fuel : ℕ) (s : LoopSt) (h : s.n < 4 * sizeofFloat) :
    reluLoopF fuel s = s := by
  cases fuel with
  | zero => rfl
  | succ f => rw [reluLoopF, if_neg (by omega)]

lemma reluLoopF_step (f : ℕ) (s : LoopSt) (h : 4 * sizeofFloat ≤ s.n) :
    reluLoopF (f + 1) s =
      reluLoopF f
        { mem := mm_storeu_ps s.mem s.y (mm_max_ps (mm_loadu_ps s.mem s.x) mm_setzero_ps)
          n := s.n - 4 * sizeofFloat
          x := s.x + 4
          y := s.y + 4
          reads := s.reads ++ [s.x, s.x + 1, s.x + 2, s.x + 3]
          writes := s.writes ++ [s.y, s.y + 1, s.y + 2, s.y + 3] } := by
  rw [reluLoopF, if_pos h]

lemma reluLoopF_frame :
    ∀ (K fuel : ℕ) (s : LoopSt) (r : ℕ), K ≤ fuel → s.n = 16 * K + r → r < 16 →
      (reluLoopF fuel s).n = r ∧
      (reluLoopF fuel s).x = s.x + 4 * (K : ℤ) ∧
      (reluLoopF fuel s).y = s.y + 4 * (K : ℤ) ∧
      (reluLoopF fuel s).reads = s.reads ++ idxRange s.x (4 * K) ∧
      (reluLoopF fuel s).writes = s.writes ++ idxRange s.y (4 * K) ∧
      (∀ j : ℤ, (∀ i : ℕ, i < 4 * K → j ≠ s.y + (i : ℤ)) →
        (reluLoopF fuel s).mem j = s.mem j) := by
  intro K
  induction K with
  | zero =>
      intro fuel s r _ hn hr
      rw [reluLoopF_small fuel s (by simp only [sizeofFloat]; omega)]
      exact ⟨by omega, by simp, by simp, by simp [idxRange_zero],
        by simp [idxRange_zero], fun j _ => rfl⟩
  | succ K ih =>
      intro fuel s r hfuel hn hr
      obtain ⟨f, rfl⟩ : ∃ f, fuel = f + 1 := ⟨fuel - 1, by omega⟩
      have hcond : 4 * sizeofFloat ≤ s.n := by simp only [sizeofFloat]; omega
      rw [reluLoopF_step f s hcond]
      set t : LoopSt :=
        { mem := mm_storeu_ps s.mem s.y (mm_max_ps (mm_loadu_ps s.mem s.x) mm_setzero_ps)
          n := s.n - 4 * sizeofFloat
          x := s.x + 4
          y := s.y + 4
          reads := s.reads ++ [s.x, s.x + 1, s.x + 2, s.x + 3]
          writes := s.writes ++ [s.y, s.y + 1, s.y + 2, s.y + 3] } with ht
      have htn : t.n = 16 * K + r := by
        rw [ht]
        show s.n - 4 * sizeofFloat = 16 * K + r
        simp only [sizeofFloat]
        omega
      have htx : t.x = s.x + 4 := by rw [ht]
      have hty : t.y = s.y + 4 := by rw [ht]
      have htreads : t.reads = s.reads ++ [s.x, s.x + 1, s.x + 2, s.x + 3] := by rw [ht]
      have htwrites : t.writes = s.writes ++ [s.y, s.y + 1, s.y + 2, s.y + 3] := by rw [ht]
      have htmem : t.mem
          = mm_storeu_ps s.mem s.y (mm_max_ps (mm_loadu_ps s.mem s.x) mm_setzero_ps) := by
        rw [ht]
      obtain ⟨h1, h2, h3, h4, h5, h6⟩ := ih f t r (by omega) htn hr
      refine ⟨h1, ?_, ?_, ?_, ?_, ?_⟩
      · rw [h2, htx]; push_cast; ring
      · rw [h3, hty]; push_cast; ring
      · rw [h4, htreads, htx]
        rw [show 4 * (K + 1) = 4 + 4 * K from by ring, idxRange_append s.x 4 (4 * K),
          idxRange_four, List.append_assoc]
        norm_num
      · rw [h5, htwrites, hty]
        rw [show 4 * (K + 1) = 4 + 4 * K from by ring, idxRange_append s.y 4 (4 * K),
          idxRange_four, List.append_assoc]
        norm_num
      · intro j hj
        rw [h6 j ?later]
        case later =>
          intro i hi
          rw [hty]
          have := hj (4 + i) (by omega)
          intro heq
          apply this
          rw [heq]
          push_cast
          ring
        have e0 : j ≠ s.y := by have := hj 0 (by omega); simpa using this
        have e1 : j ≠ s.y + 1 := by have := hj 1 (by omega); simpa using this
        have e2 : j ≠ s.y + 2 := by have := hj 2 (by omega); simpa using this
        have e3 : j ≠ s.y + 3 := by have := hj 3 (by omega); simpa using this
        rw [htmem]
        simp only [mm_storeu_ps]
        rw [if_neg e0, if_neg e1, if_neg e2, if_neg e3]

lemma reluLoopF_values :
    ∀ (K fuel : ℕ) (s : LoopSt) (r : ℕ), K ≤ fuel → s.n = 16 * K + r → r < 16 →
      (∀ a b : ℕ, a < 4 * K → b < 4 * K → s.y + (a : ℤ) = s.x + (b : ℤ) →
        s.x = s.y ∧ a = b) →
      ∀ i : ℕ, i < 4 * K →
        (reluLoopF fuel s).mem (s.y + (i : ℤ))
          = F32.maxps (s.mem (s.x + (i : ℤ))) (F32.fin 0) := by
  intro K
  induction K with
  | zero =>
      intro fuel s r _ _ _ _ i hi
      omega
  | succ K ih =>
      intro fuel s r hfuel hn hr Hsep i hi
      obtain ⟨f, rfl⟩ : ∃ f, fuel = f + 1 := ⟨fuel - 1, by omega⟩
      have hcond : 4 * sizeofFloat ≤ s.n := by simp only [sizeofFloat]; omega
      rw [reluLoopF_step f s hcond]
      set t : LoopSt :=
        { mem := mm_storeu_ps s.mem s.y (mm_max_ps (mm_loadu_ps s.mem s.x) mm_setzero_ps)
          n := s.n - 4 * sizeofFloat
          x := s.x + 4
          y := s.y + 4
          reads := s.reads ++ [s.x, s.x + 1, s.x + 2, s.x + 3]
          writes := s.writes ++ [s.y, s.y + 1, s.y + 2, s.y + 3] } with ht
      have htn : t.n = 16 * K + r := by
        rw [ht]
        show s.n - 4 * sizeofFloat = 16 * K + r
        simp only [sizeofFloat]
        omega
      have htx : t.x = s.x + 4 := by rw [ht]
      have hty : t.y = s.y + 4 := by rw [ht]
      have htmem : t.mem
          = mm_storeu_ps s.mem s.y (mm_max_ps (mm_loadu_ps s.mem s.x) mm_setzero_ps) := by
        rw [ht]
      by_cases hi4 : i < 4
      · obtain ⟨_, _, _, _, _, hframe⟩ := reluLoopF_frame K f t r (by omega) htn hr
        rw [hframe (s.y + (i : ℤ)) ?side]
        case side =>
          intro i'' hi''
          rw [hty]
          omega
        rw [htmem]
        simp only [mm_storeu_ps]
        interval_cases i <;>
          norm_num [mm_max_ps, mm_loadu_ps, mm_setzero_ps]
      · obtain ⟨i', rfl⟩ : ∃ i', i = 4 + i' := ⟨i - 4, by omega⟩
        have haddr : s.y + ((4 + i' : ℕ) : ℤ) = t.y + (i' : ℤ) := by
          rw [hty]; push_cast; ring
        have Hsep' : ∀ a b : ℕ, a < 4 * K → b < 4 * K →
            t.y + (a : ℤ) = t.x + (b : ℤ) → t.x = t.y ∧ a = b := by
          intro a b ha hb heq
          rw [hty, htx] at heq
          have h := Hsep (4 + a) (4 + b) (by omega) (by omega) (by push_cast; push_cast at heq; omega)
          refine ⟨?_, by omega⟩
          rw [htx, hty, h.1]
        rw [haddr, ih f t r (by omega) htn hr Hsep' i' (by omega)]
        have hne : ∀ c : ℕ, c < 4 → t.x + (i' : ℤ) ≠ s.y + (c : ℤ) := by
          intro c hc heq
          rw [htx] at heq
          have h := Hsep c (4 + i') (by omega) (by omega) (by push_cast; push_cast at heq; omega)
          omega
        have e0 : t.x + (i' : ℤ) ≠ s.y := by simpa using hne 0 (by omega)
        have e1 : t.x + (i' : ℤ) ≠ s.y + 1 := by simpa using hne 1 (by omega)
        have e2 : t.x + (i' : ℤ) ≠ s.y + 2 := by simpa using hne 2 (by omega)
        have e3 : t.x + (i' : ℤ) ≠ s.y + 3 := by simpa using hne 3 (by omega)
        rw [htmem]
        simp only [mm_storeu_ps]
        rw [if_neg e0, if_neg e1, if_neg e2, if_neg e3]
        have : t.x + (i' : ℤ) = s.x + ((4 + i' : ℕ) : ℤ) := by rw [htx]; push_cast; ring
        rw [this]

lemma idxRange_one (p : ℤ) : idxRange p 1 = [p] := rfl

lemma idxRange_two (p : ℤ) : idxRange p 2 = [p, p + 1] := rfl

lemma idxRange_three (p : ℤ) : idxRange p 3 = [p, p + 1, p + 1 + 1] := rfl

/-- Full characterization of one kernel call on `N` elements: the exact
list of stored indices, the residual byte count, the exact list of loaded
indices, the frame property (memory outside the `N` output cells is
untouched), and — when the output cells can only coincide with input cells
under exact aliasing — the value written to each output cell. -/
lemma kernel_spec {P : Type} (p : P) (N : ℕ) (hN : 1 ≤ N) (n : ℕ) (hn : n = 4 * N)
    (x y : ℤ) (mem : ℤ → F32) :
    ((xnn_f32_relu_ukernel__sse_x4 n x y mem p).writes = idxRange y N) ∧
    ((xnn_f32_relu_ukernel__sse_x4 n x y mem p).n = 4 * (N % 4)) ∧
    ((xnn_f32_relu_ukernel__sse_x4 n x y mem p).reads
        = idxRange x (4 * (N / 4))
          ++ (if N % 4 ≠ 0 then idxRange (x + ((4 * (N / 4) : ℕ) : ℤ)) 4 else [])) ∧
    (∀ j : ℤ, (∀ i : ℕ, i < N → j ≠ y + (i : ℤ)) →
        (xnn_f32_relu_ukernel__sse_x4 n x y mem p).mem j = mem j) ∧
    ((∀ a b : ℕ, a < N → b < N + 3 → y + (a : ℤ) = x + (b : ℤ) → x = y ∧ a = b) →
      ∀ i : ℕ, i < N →
        (xnn_f32_relu_ukernel__sse_x4 n x y mem p).mem (y + (i : ℤ))
          = F32.maxps (mem (x + (i : ℤ))) (F32.fin 0)) := by
  obtain ⟨K, R, hNKR, hR4, hKdiv, hRmod⟩ :
      ∃ K R, N = 4 * K + R ∧ R < 4 ∧ K = N / 4 ∧ R = N % 4 :=
    ⟨N / 4, N % 4, by omega, by omega, rfl, rfl⟩
  rw [← hKdiv, ← hRmod]
  simp only [xnn_f32_relu_ukernel__sse_x4]
  have hinitn : (LoopSt.mk mem n x y [] []).n = 16 * K + 4 * R := by
    show n = 16 * K + 4 * R
    omega
  obtain ⟨hs1n, hs1x, hs1y, hs1reads, hs1writes, hs1mem⟩ :=
    reluLoopF_frame K n (LoopSt.mk mem n x y [] []) (4 * R) (by omega) hinitn (by omega)
  have hvalues := reluLoopF_values K n (LoopSt.mk mem n x y [] []) (4 * R)
    (by omega) hinitn (by omega)
  set s1 := reluLoopF n (LoopSt.mk mem n x y [] []) with hs1
  dsimp only at hs1x hs1y hs1reads hs1writes hs1mem hvalues
  simp only [List.nil_append] at hs1reads hs1writes
  have hloopsep :
      (∀ a b : ℕ, a < N → b < N + 3 → y + (a : ℤ) = x + (b : ℤ) → x = y ∧ a = b) →
      (∀ a b : ℕ, a < 4 * K → b < 4 * K → y + (a : ℤ) = x + (b : ℤ) → x = y ∧ a = b) :=
    fun Hsep a b ha hb heq => Hsep a b (by omega) (by omega) heq
  interval_cases R
  · -- R = 0 : tail skipped entirely
    rw [if_neg (by rw [hs1n]; simp)]
    refine ⟨?_, by omega, ?_, ?_, ?_⟩
    · rw [hs1writes]; congr 1; omega
    · rw [hs1reads]
      norm_num
      try congr 1
      try omega
    · intro j hj
      exact hs1mem j (fun i hi => hj i (by omega))
    · intro Hsep i hi
      exact hvalues (hloopsep Hsep) i (by omega)
  · -- R = 1 : tail is a single `_mm_store_ss`
    rw [if_pos (by rw [hs1n]; decide)]
    rw [if_neg (by rw [hs1n]; decide)]
    rw [if_pos (by rw [hs1n]; decide)]
    have hNval : N = 4 * K + 1 := hNKR
    refine ⟨?_, by rw [hs1n], ?_, ?_, ?_⟩
    · show s1.writes ++ [s1.y] = idxRange y N
      rw [hs1writes, hs1y, hNval, idxRange_append y (4 * K) 1, idxRange_one]
      push_cast
      rfl
    · show s1.reads ++ [s1.x, s1.x + 1, s1.x + 2, s1.x + 3] = _
      rw [hs1reads, hs1x]
      norm_num [idxRange_four]
      try push_cast
      try norm_num
      try ring_nf
    · intro j hj
      show mm_store_ss s1.mem s1.y _ j = mem j
      have hne : j ≠ s1.y := by
        rw [hs1y]
        have := hj (4 * K) (by omega)
        push_cast at this ⊢
        omega
      rw [mm_store_ss, if_neg hne]
      exact hs1mem j (fun i hi => hj i (by omega))
    · intro Hsep i hi
      show mm_store_ss s1.mem s1.y _ (y + (i : ℤ)) = _
      by_cases hik : i < 4 * K
      · have hne : y + (i : ℤ) ≠ s1.y := by
          rw [hs1y]; push_cast; omega
        rw [mm_store_ss, if_neg hne]
        exact hvalues (hloopsep Hsep) i hik
      · have hie : i = 4 * K := by omega
        subst hie
        have heq : y + ((4 * K : ℕ) : ℤ) = s1.y := by rw [hs1y]; push_cast; ring
        rw [mm_store_ss, if_pos heq]
        show F32.maxps (s1.mem s1.x) (F32.fin 0) = _
        have hxread : s1.mem s1.x = mem (x + ((4 * K : ℕ) : ℤ)) := by
          rw [hs1x]
          have : s1.mem (x + 4 * (K : ℤ)) = mem (x + 4 * (K : ℤ)) := by
            apply hs1mem
            intro a ha heq2
            have h := Hsep a (4 * K) (by omega) (by omega)
              (by push_cast at heq2 ⊢; omega)
            omega
          rw [this]
          push_cast
          ring_nf
        rw [hxread]
  · -- R = 2 : tail is a single `_mm_storel_pi`
    rw [if_pos (by rw [hs1n]; decide)]
    rw [if_pos (by rw [hs1n]; decide)]
    rw [if_neg (by rw [hs1n]; decide)]
    have hNval : N = 4 * K + 2 := hNKR
    refine ⟨?_, by rw [hs1n], ?_, ?_, ?_⟩
    · show s1.writes ++ [s1.y, s1.y + 1] = idxRange y N
      rw [hs1writes, hs1y, hNval, idxRange_append y (4 * K) 2, idxRange_two]
      push_cast
      rfl
    · show s1.reads ++ [s1.x, s1.x + 1, s1.x + 2, s1.x + 3] = _
      rw [hs1reads, hs1x]
      norm_num [idxRange_four]
      try push_cast
      try norm_num
      try ring_nf
    · intro j hj
      show mm_storel_pi s1.mem s1.y _ j = mem j
      have hne0 : j ≠ s1.y := by
        rw [hs1y]
        have := hj (4 * K) (by omega)
        push_cast at this ⊢
        omega
      have hne1 : j ≠ s1.y + 1 := by
        rw [hs1y]
        have := hj (4 * K + 1) (by omega)
        push_cast at this ⊢
        omega
      rw [mm_storel_pi, if_neg hne0, if_neg hne1]
      exact hs1mem j (fun i hi => hj i (by omega))
    · intro Hsep i hi
      show mm_storel_pi s1.mem s1.y _ (y + (i : ℤ)) = _
      have hread : ∀ t : ℕ, t < 4 → s1.mem (s1.x + (t : ℤ)) = mem (x + ((4 * K + t : ℕ) : ℤ)) := by
        intro t ht
        rw [hs1x]
        have : s1.mem (x + 4 * (K : ℤ) + (t : ℤ)) = mem (x + 4 * (K : ℤ) + (t : ℤ)) := by
          apply hs1mem
          intro a ha heq2
          have h := Hsep a (4 * K + t) (by omega) (by omega)
            (by push_cast at heq2 ⊢; omega)
          omega
        rw [this]
        push_cast
        ring_nf
      by_cases hik : i < 4 * K
      · have hne0 : y + (i : ℤ) ≠ s1.y := by rw [hs1y]; push_cast; omega
        have hne1 : y + (i : ℤ) ≠ s1.y + 1 := by rw [hs1y]; push_cast; omega
        rw [mm_storel_pi, if_neg hne0, if_neg hne1]
        exact hvalues (hloopsep Hsep) i hik
      · rcases (by omega : i = 4 * K ∨ i = 4 * K + 1) with hie | hie
        · subst hie
          have heq : y + ((4 * K : ℕ) : ℤ) = s1.y := by rw [hs1y]; push_cast; ring
          rw [mm_storel_pi, if_pos heq]
          show F32.maxps (s1.mem s1.x) (F32.fin 0) = _
          have := hread 0 (by omega)
          simp only [Nat.cast_zero, add_zero, Nat.add_zero] at this
          rw [this]
        · subst hie
          have hne0 : y + ((4 * K + 1 : ℕ) : ℤ) ≠ s1.y := by
            rw [hs1y]; push_cast; omega
          have heq : y + ((4 * K + 1 : ℕ) : ℤ) = s1.y + 1 := by
            rw [hs1y]; push_cast; ring
          rw [mm_storel_pi, if_neg hne0, if_pos heq]
          show F32.maxps (s1.mem (s1.x + 1)) (F32.fin 0) = _
          have := hread 1 (by omega)
          simp only [Nat.cast_one] at this
          rw [this]
  · -- R = 3 : `_mm_storel_pi`, `_mm_movehl_ps`, then `_mm_store_ss`
    rw [if_pos (by rw [hs1n]; decide)]
    rw [if_pos (by rw [hs1n]; decide)]
    rw [if_pos (by rw [hs1n]; decide)]
    have hNval : N = 4 * K + 3 := hNKR
    refine ⟨?_, by rw [hs1n], ?_, ?_, ?_⟩
    · show s1.writes ++ [s1.y, s1.y + 1, s1.y + 2] = idxRange y N
      rw [hs1writes, hs1y, hNval, idxRange_append y (4 * K) 3, idxRange_three]
      push_cast
      norm_num
      ring
    · show s1.reads ++ [s1.x, s1.x + 1, s1.x + 2, s1.x + 3] = _
      rw [hs1reads, hs1x]
      norm_num [idxRange_four]
      try push_cast
      try norm_num
      try ring_nf
    · intro j hj
      show mm_store_ss (mm_storel_pi s1.mem s1.y _) (s1.y + 2) _ j = mem j
      have hne0 : j ≠ s1.y := by
        rw [hs1y]
        have := hj (4 * K) (by omega)
        push_cast at this ⊢
        omega
      have hne1 : j ≠ s1.y + 1 := by
        rw [hs1y]
        have := hj (4 * K + 1) (by omega)
        push_cast at this ⊢
        omega
      have hne2 : j ≠ s1.y + 2 := by
        rw [hs1y]
        have := hj (4 * K + 2) (by omega)
        push_cast at this ⊢
        omega
      rw [mm_store_ss, if_neg hne2, mm_storel_pi, if_neg hne0, if_neg hne1]
      exact hs1mem j (fun i hi => hj i (by omega))
    · intro Hsep i hi
      show mm_store_ss (mm_storel_pi s1.mem s1.y _) (s1.y + 2) _ (y + (i : ℤ)) = _
      have hread : ∀ t : ℕ, t < 4 → s1.mem (s1.x + (t : ℤ)) = mem (x + ((4 * K + t : ℕ) : ℤ)) := by
        intro t ht
        rw [hs1x]
        have : s1.mem (x + 4 * (K : ℤ) + (t : ℤ)) = mem (x + 4 * (K : ℤ) + (t : ℤ)) := by
          apply hs1mem
          intro a ha heq2
          have h := Hsep a (4 * K + t) (by omega) (by omega)
            (by push_cast at heq2 ⊢; omega)
          omega
        rw [this]
        push_cast
        ring_nf
      by_cases hik : i < 4 * K
      · have hne0 : y + (i : ℤ) ≠ s1.y := by rw [hs1y]; push_cast; omega
        have hne1 : y + (i : ℤ) ≠ s1.y + 1 := by rw [hs1y]; push_cast; omega
        have hne2 : y + (i : ℤ) ≠ s1.y + 2 := by rw [hs1y]; push_cast; omega
        rw [mm_store_ss, if_neg hne2, mm_storel_pi, if_neg hne0, if_neg hne1]
        exact hvalues (hloopsep Hsep) i hik
      · rcases (by omega : i = 4 * K ∨ i = 4 * K + 1 ∨ i = 4 * K + 2) with hie | hie | hie
        · subst hie
          have hne2 : y + ((4 * K : ℕ) : ℤ) ≠ s1.y + 2 := by
            rw [hs1y]; push_cast; omega
          have heq : y + ((4 * K : ℕ) : ℤ) = s1.y := by rw [hs1y]; push_cast; ring
          rw [mm_store_ss, if_neg hne2, mm_storel_pi, if_pos heq]
          show F32.maxps (s1.mem s1.x) (F32.fin 0) = _
          have := hread 0 (by omega)
          simp only [Nat.cast_zero, add_zero, Nat.add_zero] at this
          rw [this]
        · subst hie
          have hne2 : y + ((4 * K + 1 : ℕ) : ℤ) ≠ s1.y + 2 := by
            rw [hs1y]; push_cast; omega
          have hne0 : y + ((4 * K + 1 : ℕ) : ℤ) ≠ s1.y := by
            rw [hs1y]; push_cast; omega
          have heq : y + ((4 * K + 1 : ℕ) : ℤ) = s1.y + 1 := by
            rw [hs1y]; push_cast; ring
          rw [mm_store_ss, if_neg hne2, mm_storel_pi, if_neg hne0, if_pos heq]
          show F32.maxps (s1.mem (s1.x + 1)) (F32.fin 0) = _
          have := hread 1 (by omega)
          simp only [Nat.cast_one] at this
          rw [this]
        · subst hie
          have heq : y + ((4 * K + 2 : ℕ) : ℤ) = s1.y + 2 := by
            rw [hs1y]; push_cast; ring
          rw [mm_store_ss, if_pos heq]
          show (mm_movehl_ps _ _).lane0 = _
          show F32.maxps (s1.mem (s1.x + 2)) (F32.fin 0) = _
          have := hread 2 (by omega)
          simp only [Nat.cast_ofNat] at this
          rw [this]

/-! ### Arithmetic facts about the `MAXPS` lane operation -/

lemma maxps_fin_of_finite (v : F32) (h : v.isFinite = true) :
    F32.maxps v (F32.fin 0) = F32.fin (max v.toRat 0) := by
  cases v with
  | nan => simp [F32.isFinite] at h
  | inf b => simp [F32.isFinite] at h
  | negZero =>
      show F32.maxps F32.negZero (F32.fin 0) = F32.fin (max (0 : ℚ) 0)
      decide
  | fin q =>
      rcases le_or_lt q 0 with hq | hq
      · simp [F32.maxps, F32.isNaN, F32.gtv, F32.toRat, not_lt.mpr hq, max_eq_right hq]
      · simp [F32.maxps, F32.isNaN, F32.gtv, F32.toRat, hq, max_eq_left hq.le]

lemma maxps_zero_idem (v : F32) :
    F32.maxps (F32.maxps v (F32.fin 0)) (F32.fin 0) = F32.maxps v (F32.fin 0) := by
  cases v with
  | nan => decide
  | negZero => decide
  | inf b => cases b <;> decide
  | fin q =>
      rcases le_or_lt q 0 with hq | hq
      · simp [F32.maxps, F32.isNaN, F32.gtv, not_lt.mpr hq]
      · simp [F32.maxps, F32.isNaN, F32.gtv, hq]

/-! ### Concrete memories used to instantiate the theorems -/

/-- The rational `-3.5`, built by the `Rat` structure constructor so that
it evaluates by kernel reduction. -/
def q3p5n : ℚ := ⟨-7, 2, by decide, by decide⟩

/-- The rational `2.25`, built by the `Rat` structure constructor so that
it evaluates by kernel reduction. -/
def q2p25 : ℚ := ⟨9, 4, by decide, by decide⟩

lemma q3p5n_eq : q3p5n = -7 / 2 := by
  have h := (Rat.num_div_den q3p5n).symm
  rw [show q3p5n.num = -7 from rfl, show q3p5n.den = 2 from rfl] at h
  rw [h]
  norm_num

lemma q2p25_eq : q2p25 = 9 / 4 := by
  have h := (Rat.num_div_den q2p25).symm
  rw [show q2p25.num = 9 from rfl, show q2p25.den = 4 from rfl] at h
  rw [h]
  norm_num

/-- Concrete input memory holding `[-3.5, 0.0, 2.25, -0.0, 7.0]` at
indices `0..4` (the spec's mixed test vector) and `1.0` elsewhere. -/
def memA : ℤ → F32 := fun j =>
  if j = 0 then F32.fin q3p5n
  else if j = 1 then F32.fin 0
  else if j = 2 then F32.fin q2p25
  else if j = 3 then F32.negZero
  else if j = 4 then F32.fin 7
  else F32.fin 1

/-- Concrete input memory holding `NaN` at index 0, `-0.0` at index 1, and
`-1.0` elsewhere. -/
def memB : ℤ → F32 := fun j =>
  if j = 0 then F32.nan
  else if j = 1 then F32.negZero
  else F32.fin (-1)

/-- Any two fuel values at least the byte count give the same loop result:
the loop terminates within `n` iterations since each iteration removes
`4 * sizeof(float) > 0` bytes from `n`. -/
lemma reluLoopF_fuel : ∀ (m f g : ℕ) (s : LoopSt), s.n ≤ m → s.n ≤ f → s.n ≤ g →
    reluLoopF f s = reluLoopF g s := by
  intro m
  induction m using Nat.strong_induction_on with
  | _ m ih =>
      intro f g s hm hf hg
      by_cases hsmall : s.n < 4 * sizeofFloat
      · rw [reluLoopF_small f s hsmall, reluLoopF_small g s hsmall]
      · push_neg at hsmall
        have h16 : 16 ≤ s.n := by simpa [sizeofFloat] using hsmall
        obtain ⟨f', rfl⟩ : ∃ f', f = f' + 1 := ⟨f - 1, by omega⟩
        obtain ⟨g', rfl⟩ : ∃ g', g = g' + 1 := ⟨g - 1, by omega⟩
        rw [reluLoopF_step f' s hsmall, reluLoopF_step g' s hsmall]
        apply ih (s.n - 4 * sizeofFloat) (by simp only [sizeofFloat]; omega)
        · show s.n - 4 * sizeofFloat ≤ s.n - 4 * sizeofFloat
          exact le_refl _
        · show s.n - 4 * sizeofFloat ≤ f'
          simp only [sizeofFloat]
          omega
        · show s.n - 4 * sizeofFloat ≤ g'
          simp only [sizeofFloat]
          omega

/-! ### Claim theorems -/

/-- C1: for every element count `N ≥ 1` and every input buffer of `N`
finite floats, after calling the kernel with `n = N * sizeof(float)` bytes
(on an output buffer disjoint from the input's loaded region) the output
satisfies `output[i] = max(input[i], 0.0)` — with both zeros mapped to
positive zero — for every `i < N`. -/
theorem relu_functional_correct (N : ℕ) (hN : 1 ≤ N) (x y : ℤ) (mem : ℤ → F32)
    {P : Type} (p : P)
    (hsep : ∀ a b : ℕ, a < N → b < N + 3 → y + (a : ℤ) ≠ x + (b : ℤ))
    (hfin : ∀ i : ℕ, i < N → (mem (x + (i : ℤ))).isFinite = true) :
    ∀ i : ℕ, i < N →
      (xnn_f32_relu_ukernel__sse_x4 (N * sizeofFloat) x y mem p).mem (y + (i : ℤ))
        = F32.fin (max ((mem (x + (i : ℤ))).toRat) 0) := by
  intro i hi
  have h := (kernel_spec p N hN (N * sizeofFloat)
    (by simp only [sizeofFloat]; ring) x y mem).2.2.2.2
  rw [h (fun a b ha hb heq => absurd heq (hsep a b ha hb)) i hi,
    maxps_fin_of_finite _ (hfin i hi)]

/-- Witness for C1 at `N = 5`, input `memA`, output base 100, index 2. -/
theorem relu_functional_correct_witness :
    (xnn_f32_relu_ukernel__sse_x4 (5 * sizeofFloat) 0 100 memA ()).mem (100 + ((2 : ℕ) : ℤ))
      = F32.fin (max ((memA (0 + ((2 : ℕ) : ℤ))).toRat) 0) :=
  relu_functional_correct 5 (by norm_num) 0 100 memA ()
    (by intro a b ha hb; omega) (by decide) 2 (by norm_num)

/-- C2 (counterexample): at `N = 1` (`n = 4` bytes, input buffer indices
`[0, 1)` with base 0) the kernel's load list contains index 3, which is
not inside `[0, 1)` — the tail's full-width load DOES read past the end of
the logical buffer, rather than being aligned to the buffer's final `W`
elements. -/
theorem relu_tail_load_oob :
    ((3 : ℤ) ∈ (xnn_f32_relu_ukernel__sse_x4 4 0 100 memA ()).reads) ∧ ¬((3 : ℤ) < 1) := by
  decide

/-- C2 (amended): for every `N ≥ 1` with `R = N mod 4 ≠ 0`, the tail's
full-width vector load reads exactly the four indices starting at the
loop's final cursor `N - R`; since `N ≤ (N - R) + 3`, this window includes
`4 - R` indices at or past the end of the `N`-element buffer (the code
relies on the caller's allocation padding for those reads). -/
theorem relu_tail_load_window (N : ℕ) (hN : 1 ≤ N) (hR : N % 4 ≠ 0)
    (x y : ℤ) (mem : ℤ → F32) {P : Type} (p : P) :
    (xnn_f32_relu_ukernel__sse_x4 (4 * N) x y mem p).reads
        = idxRange x (N - N % 4) ++ idxRange (x + ((N - N % 4 : ℕ) : ℤ)) 4
      ∧ N ≤ (N - N % 4) + 3 := by
  have h := (kernel_spec p N hN (4 * N) rfl x y mem).2.2.1
  have hq : 4 * (N / 4) = N - N % 4 := by omega
  rw [h, if_pos hR, hq]
  exact ⟨rfl, by omega⟩

/-- Witness for C2 (amended) at `N = 5`. -/
theorem relu_tail_load_window_witness :
    (xnn_f32_relu_ukernel__sse_x4 (4 * 5) 0 100 memA ()).reads
        = idxRange 0 (5 - 5 % 4) ++ idxRange (0 + ((5 - 5 % 4 : ℕ) : ℤ)) 4
      ∧ 5 ≤ (5 - 5 % 4) + 3 :=
  relu_tail_load_window 5 (by norm_num) (by norm_num) 0 100 memA ()

/-- C3: for every valid call (`N ≥ 1`, `n = N * sizeof(float)`), the
kernel's store list is exactly the `N` output indices `y .. y+N-1`
(the main loop's full stores plus the tail's bit-tested partial stores
covering exactly the `N mod 4` remainder elements), and every memory cell
outside those `N` output cells is left unchanged. -/
theorem relu_writes_exact (N : ℕ) (hN : 1 ≤ N) (n : ℕ) (hn : n = N * sizeofFloat)
    (x y : ℤ) (mem : ℤ → F32) {P : Type} (p : P) :
    (xnn_f32_relu_ukernel__sse_x4 n x y mem p).writes = idxRange y N ∧
    (∀ j : ℤ, (∀ i : ℕ, i < N → j ≠ y + (i : ℤ)) →
      (xnn_f32_relu_ukernel__sse_x4 n x y mem p).mem j = mem j) := by
  have h := kernel_spec p N hN n (by simp only [sizeofFloat] at hn ⊢; omega) x y mem
  exact ⟨h.1, h.2.2.2.1⟩

/-- Witness for C3 at `N = 5`, `n = 20`. -/
theorem relu_writes_exact_witness :
    (xnn_f32_relu_ukernel__sse_x4 20 0 100 memA ()).writes = idxRange 100 5 ∧
    (∀ j : ℤ, (∀ i : ℕ, i < 5 → j ≠ 100 + (i : ℤ)) →
      (xnn_f32_relu_ukernel__sse_x4 20 0 100 memA ()).mem j = memA j) :=
  relu_writes_exact 5 (by norm_num) 20 (by norm_num [sizeofFloat]) 0 100 memA ()

/-- C4: in-place equivalence — calling the kernel with the output buffer
exactly aliasing the input buffer (`y = x`) produces the same final output
contents as calling it with a separate, disjoint output buffer. -/
theorem relu_inplace_equiv (N : ℕ) (hN : 1 ≤ N) (x y : ℤ) (mem : ℤ → F32)
    {P : Type} (p : P)
    (hsep : ∀ a b : ℕ, a < N → b < N + 3 → y + (a : ℤ) ≠ x + (b : ℤ)) :
    ∀ i : ℕ, i < N →
      (xnn_f32_relu_ukernel__sse_x4 (4 * N) x x mem p).mem (x + (i : ℤ))
        = (xnn_f32_relu_ukernel__sse_x4 (4 * N) x y mem p).mem (y + (i : ℤ)) := by
  intro i hi
  have h1 := (kernel_spec p N hN (4 * N) rfl x x mem).2.2.2.2
    (fun a b _ _ heq => ⟨rfl, by omega⟩) i hi
  have h2 := (kernel_spec p N hN (4 * N) rfl x y mem).2.2.2.2
    (fun a b ha hb heq => absurd heq (hsep a b ha hb)) i hi
  rw [h1, h2]

/-- Witness for C4 at `N = 5`, index 3 (the negative-zero element). -/
theorem relu_inplace_equiv_witness :
    (xnn_f32_relu_ukernel__sse_x4 (4 * 5) 0 0 memA ()).mem (0 + ((3 : ℕ) : ℤ))
      = (xnn_f32_relu_ukernel__sse_x4 (4 * 5) 0 100 memA ()).mem (100 + ((3 : ℕ) : ℤ)) :=
  relu_inplace_equiv 5 (by norm_num) 0 100 memA ()
    (by intro a b ha hb; omega) 3 (by norm_num)

/-- C5: idempotence — feeding the kernel's output buffer back through the
kernel yields exactly the same values as the single application. -/
theorem relu_idempotent (N : ℕ) (hN : 1 ≤ N) (x y z : ℤ) (mem : ℤ → F32)
    {P : Type} (p : P)
    (hsep1 : ∀ a b : ℕ, a < N → b < N + 3 → y + (a : ℤ) ≠ x + (b : ℤ))
    (hsep2 : ∀ a b : ℕ, a < N → b < N + 3 → z + (a : ℤ) ≠ y + (b : ℤ)) :
    ∀ i : ℕ, i < N →
      (xnn_f32_relu_ukernel__sse_x4 (4 * N) y z
          ((xnn_f32_relu_ukernel__sse_x4 (4 * N) x y mem p).mem) p).mem (z + (i : ℤ))
        = (xnn_f32_relu_ukernel__sse_x4 (4 * N) x y mem p).mem (y + (i : ℤ)) := by
  intro i hi
  have h2 := (kernel_spec p N hN (4 * N) rfl y z
      ((xnn_f32_relu_ukernel__sse_x4 (4 * N) x y mem p).mem)).2.2.2.2
    (fun a b ha hb heq => absurd heq (hsep2 a b ha hb)) i hi
  have h1 := (kernel_spec p N hN (4 * N) rfl x y mem).2.2.2.2
    (fun a b ha hb heq => absurd heq (hsep1 a b ha hb)) i hi
  rw [h2, h1, maxps_zero_idem]

/-- Witness for C5 at `N = 5`, buffers at 0, 100, 200, index 0. -/
theorem relu_idempotent_witness :
    (xnn_f32_relu_ukernel__sse_x4 (4 * 5) 100 200
        ((xnn_f32_relu_ukernel__sse_x4 (4 * 5) 0 100 memA ()).mem) ()).mem
        (200 + ((0 : ℕ) : ℤ))
      = (xnn_f32_relu_ukernel__sse_x4 (4 * 5) 0 100 memA ()).mem (100 + ((0 : ℕ) : ℤ)) :=
  relu_idempotent 5 (by norm_num) 0 100 200 memA ()
    (by intro a b ha hb; omega) (by intro a b ha hb; omega) 0 (by norm_num)

/-- C6: the kernel never reads its `params` argument — two calls that
differ only in the parameter block are literally the same computation, so
the resulting states (memory, loads, stores) are identical. -/
theorem relu_params_ignored {P : Type} (n : ℕ) (x y : ℤ) (mem : ℤ → F32) (p₁ p₂ : P) :
    xnn_f32_relu_ukernel__sse_x4 n x y mem p₁ = xnn_f32_relu_ukernel__sse_x4 n x y mem p₂ :=
  rfl

/-- C7: when `N` is a positive multiple of the vector width 4 (byte count
`16 * M`), the residual byte count after the main loop is zero and the
tail branch is not taken: the kernel's loads and stores are exactly the
main loop's `4 * M` full-width lanes — no tail load, no tail store. -/
theorem relu_tail_skipped_multiple (M : ℕ) (hM : 1 ≤ M) (x y : ℤ) (mem : ℤ → F32)
    {P : Type} (p : P) :
    (xnn_f32_relu_ukernel__sse_x4 (16 * M) x y mem p).n = 0 ∧
    (xnn_f32_relu_ukernel__sse_x4 (16 * M) x y mem p).reads = idxRange x (4 * M) ∧
    (xnn_f32_relu_ukernel__sse_x4 (16 * M) x y mem p).writes = idxRange y (4 * M) := by
  obtain ⟨hw, hn, hreads, _, _⟩ :=
    kernel_spec p (4 * M) (by omega) (16 * M) (by ring) x y mem
  have hmod : (4 * M) % 4 = 0 := by omega
  have hdiv : (4 * M) / 4 = M := by omega
  refine ⟨by rw [hn, hmod], ?_, hw⟩
  rw [hreads, hdiv]
  simp [hmod]

/-- Witness for C7 at `M = 1` (`N = 4` exactly, one vector width). -/
theorem relu_tail_skipped_multiple_witness :
    (xnn_f32_relu_ukernel__sse_x4 (16 * 1) 0 100 memA ()).n = 0 ∧
    (xnn_f32_relu_ukernel__sse_x4 (16 * 1) 0 100 memA ()).reads = idxRange 0 (4 * 1) ∧
    (xnn_f32_relu_ukernel__sse_x4 (16 * 1) 0 100 memA ()).writes = idxRange 100 (4 * 1) :=
  relu_tail_skipped_multiple 1 (by norm_num) 0 100 memA ()

/-- C8: totality and determinism — (i) the main loop stabilizes at fuel
`n` (every fuel bound at least `n` gives the same result, i.e. the loop
terminates within `n` iterations), (ii) each loop iteration strictly
decreases the byte count by `4 * sizeof(float)`, and (iii) two calls on
identical inputs produce identical output states. -/
theorem relu_total_deterministic (n : ℕ) (hn4 : n % 4 = 0) (hn : 1 ≤ n)
    (x y : ℤ) (mem : ℤ → F32) {P : Type} (p : P) :
    (∀ f : ℕ, n ≤ f →
      reluLoopF f { mem := mem, n := n, x := x, y := y, reads := [], writes := [] }
        = reluLoopF n { mem := mem, n := n, x := x, y := y, reads := [], writes := [] }) ∧
    (∀ s : LoopSt, ∀ f : ℕ, 4 * sizeofFloat ≤ s.n →
      reluLoopF (f + 1) s
          = reluLoopF f
              { mem := mm_storeu_ps s.mem s.y (mm_max_ps (mm_loadu_ps s.mem s.x) mm_setzero_ps)
                n := s.n - 4 * sizeofFloat
                x := s.x + 4
                y := s.y + 4
                reads := s.reads ++ [s.x, s.x + 1, s.x + 2, s.x + 3]
                writes := s.writes ++ [s.y, s.y + 1, s.y + 2, s.y + 3] }
        ∧ s.n - 4 * sizeofFloat < s.n) ∧
    (∀ mem₁ mem₂ : ℤ → F32, (∀ j : ℤ, mem₁ j = mem₂ j) →
      xnn_f32_relu_ukernel__sse_x4 n x y mem₁ p = xnn_f32_relu_ukernel__sse_x4 n x y mem₂ p) := by
  refine ⟨?_, ?_, ?_⟩
  · intro f hf
    exact reluLoopF_fuel n f n
      { mem := mem, n := n, x := x, y := y, reads := [], writes := [] }
      (le_refl n) hf (le_refl n)
  · intro s f hs
    refine ⟨reluLoopF_step f s hs, ?_⟩
    simp only [sizeofFloat] at hs ⊢
    omega
  · intro mem₁ mem₂ h
    rw [funext h]

/-- Witness for C8 at `n = 4` bytes. -/
theorem relu_total_deterministic_witness :
    (∀ f : ℕ, 4 ≤ f →
      reluLoopF f { mem := memA, n := 4, x := 0, y := 100, reads := [], writes := [] }
        = reluLoopF 4 { mem := memA, n := 4, x := 0, y := 100, reads := [], writes := [] }) ∧
    (∀ s : LoopSt, ∀ f : ℕ, 4 * sizeofFloat ≤ s.n →
      reluLoopF (f + 1) s
          = reluLoopF f
              { mem := mm_storeu_ps s.mem s.y (mm_max_ps (mm_loadu_ps s.mem s.x) mm_setzero_ps)
                n := s.n - 4 * sizeofFloat
                x := s.x + 4
                y := s.y + 4
                reads := s.reads ++ [s.x, s.x + 1, s.x + 2, s.x + 3]
                writes := s.writes ++ [s.y, s.y + 1, s.y + 2, s.y + 3] }
        ∧ s.n - 4 * sizeofFloat < s.n) ∧
    (∀ mem₁ mem₂ : ℤ → F32, (∀ j : ℤ, mem₁ j = mem₂ j) →
      xnn_f32_relu_ukernel__sse_x4 4 0 100 mem₁ () = xnn_f32_relu_ukernel__sse_x4 4 0 100 mem₂ ()) :=
  relu_total_deterministic 4 (by norm_num) (by norm_num) 0 100 memA ()

/-- C9: on the concrete length-5 input `[-3.5, 0.0, 2.25, -0.0, 7.0]` the
kernel produces `[0.0, 0.0, 2.25, 0.0, 7.0]`; in particular the
negative-zero element at index 3 comes out as positive zero. -/
theorem relu_concrete_mixed :
    ((xnn_f32_relu_ukernel__sse_x4 20 0 100 memA ()).mem 100 = F32.fin 0) ∧
    ((xnn_f32_relu_ukernel__sse_x4 20 0 100 memA ()).mem 101 = F32.fin 0) ∧
    ((xnn_f32_relu_ukernel__sse_x4 20 0 100 memA ()).mem 102 = F32.fin (9 / 4)) ∧
    ((xnn_f32_relu_ukernel__sse_x4 20 0 100 memA ()).mem 103 = F32.fin 0) ∧
    ((xnn_f32_relu_ukernel__sse_x4 20 0 100 memA ()).mem 104 = F32.fin 7) := by
  rw [show (9 / 4 : ℚ) = q2p25 from q2p25_eq.symm]
  decide

/-- C10: every NaN input element, and every negative-zero input element,
produces exactly positive zero in the output: `_mm_max_ps(v, zero)` with
the zero vector as second operand returns the second operand on a NaN
first operand, and returns the second operand when both are zeros. -/
theorem relu_nan_negzero_to_poszero (N : ℕ) (hN : 1 ≤ N) (x y : ℤ) (mem : ℤ → F32)
    {P : Type} (p : P)
    (hsep : ∀ a b : ℕ, a < N → b < N + 3 → y + (a : ℤ) ≠ x + (b : ℤ)) :
    ∀ i : ℕ, i < N →
      (mem (x + (i : ℤ)) = F32.nan ∨ mem (x + (i : ℤ)) = F32.negZero) →
      (xnn_f32_relu_ukernel__sse_x4 (4 * N) x y mem p).mem (y + (i : ℤ)) = F32.fin 0 := by
  intro i hi hcase
  rw [(kernel_spec p N hN (4 * N) rfl x y mem).2.2.2.2
    (fun a b ha hb heq => absurd heq (hsep a b ha hb)) i hi]
  rcases hcase with h | h <;> rw [h] <;> decide

/-- Witness for C10 at `N = 2` with `memB = [NaN, -0.0]`, index 0. -/
theorem relu_nan_negzero_to_poszero_witness :
    (xnn_f32_relu_ukernel__sse_x4 (4 * 2) 0 100 memB ()).mem (100 + ((0 : ℕ) : ℤ))
      = F32.fin 0 :=
  relu_nan_negzero_to_poszero 2 (by norm_num) 0 100 memB ()
    (by intro a b ha hb; omega) 0 (by norm_num) (Or.inl (by decide))
